/-
Verification of the lock-free hash table in src/lfht/LockFreeHashTable.hpp
(Michael-style lock-free hash table with list-based buckets).

The development shallowly embeds the data model and the operations of the
source file:

* `MarkedPtr` mirrors the 64-bit tagged word of LockFreeHashTable.hpp
  lines 19-43: layout [marked (1)][tag (15)][ptr (48)], built and
  decomposed arithmetically over `Nat` (the C++ masks select disjoint bit
  ranges, so the bitwise-or of the constructor equals the sum used here).
* `NodeR` abstracts a list node: `marked` mirrors the mark bit of the
  node's `next` field.  Bucket lists are Lean lists read head-to-tail,
  exactly the order `find_bucket` traverses a bucket.
* `insertB`, `removeB`, `findB` are the single-operator executions of
  `insert` / `remove` / `contains` restricted to one bucket: each mirrors
  `find_bucket` (lines 243-297) inlined with the operation's CAS steps.
  With a single operator every CAS succeeds and every re-check re-reads
  the unchanged value, so the retry loops run exactly one iteration.
* `insertT`, `removeT`, `containsT`, `tryResize`, `rehashAll` lift these
  to the whole table, including the load-factor checks and the resize of
  lines 136-172, 174-210, 215-220, 303-350.  `std::hash<K>` for the
  integral keys used by the repository's drivers is the identity, so
  `hash(k, size) = k % size`.
* `count` is a `size_t`; its decrement at line 203 cannot underflow in a
  reachable state (a successful remove implies at least one live node),
  so the model uses truncated `Nat` subtraction.
* The retired list is modelled as the collection of retired nodes (the
  push order of `retire_node` is abstracted; no claim depends on it).
* Interference from other operators is modelled where a claim needs it:
  `removeRun` executes the control flow of `remove` (lines 174-210)
  against a schedule of per-iteration observations, one observation per
  pass of the retry loop.
-/
import Mathlib

namespace LFHT

/-! ## Tagged references (LockFreeHashTable.hpp lines 19-43) -/

/-- The 64-bit word of `struct MarkedPtr`: `[marked (1)][tag (15)][ptr (48)]`. -/
structure MarkedPtr where
  data : Nat
deriving DecidableEq

/-- `MarkedPtr(void* ptr, bool marked, uint16_t tag)` (lines 29-34):
`data = (ptr & kPtrMask) | ((tag & kTagMask) << 48) | (marked << 63)`.
The three fields occupy disjoint bit ranges, so the bitwise-or equals the
sum below. -/
def MarkedPtr.pack (ptr : Nat) (marked : Bool) (tag : Nat) : MarkedPtr :=
  ⟨ptr % 2 ^ 48 + (tag % 2 ^ 15) * 2 ^ 48 + (if marked then 2 ^ 63 else 0)⟩

/-- `ptr()` (line 36): `data & kPtrMask`. -/
def MarkedPtr.pt (mp : MarkedPtr) : Nat := mp.data % 2 ^ 48

/-- `tag()` (line 37): `(data >> 48) & kTagMask`. -/
def MarkedPtr.tag (mp : MarkedPtr) : Nat := mp.data / 2 ^ 48 % 2 ^ 15

/-- `marked()` (line 38): `(data >> 63) & 0x1`. -/
def MarkedPtr.marked (mp : MarkedPtr) : Bool := mp.data / 2 ^ 63 % 2 = 1

/-- Packing then reading the tag reduces the tag modulo `2^15`. -/
theorem MarkedPtr.tag_pack (p : Nat) (m : Bool) (t : Nat) :
    (MarkedPtr.pack p m t).tag = t % 2 ^ 15 := by
  unfold MarkedPtr.pack MarkedPtr.tag
  cases m <;> simp <;> omega

/-- Packing then reading the mark returns the mark. -/
theorem MarkedPtr.marked_pack (p : Nat) (m : Bool) (t : Nat) :
    (MarkedPtr.pack p m t).marked = m := by
  unfold MarkedPtr.pack MarkedPtr.marked
  cases m <;> simp <;> omega

/-! ### The `desired` value of every CAS on a tagged reference

Each definition is the `desired` argument of one `compare_exchange` in the
source, as a function of the values the source reads just before the CAS. -/

/-- `insert`, line 161: `MarkedPtr(new_node, false, expected.tag() + 1)`. -/
def insertDesired (newNode : Nat) (expected : MarkedPtr) : MarkedPtr :=
  MarkedPtr.pack newNode false (expected.tag + 1)

/-- `remove`, line 190 (logical deletion):
`MarkedPtr(curr_next.ptr(), true, curr_next.tag() + 1)`. -/
def removeMarkDesired (currNext : MarkedPtr) : MarkedPtr :=
  MarkedPtr.pack currNext.pt true (currNext.tag + 1)

/-- `remove`, line 199 (physical unlink):
`MarkedPtr(curr_next.ptr(), false, prev_expected.tag() + 1)`. -/
def removeUnlinkDesired (currNextPtr : Nat) (prevExpected : MarkedPtr) : MarkedPtr :=
  MarkedPtr.pack currNextPtr false (prevExpected.tag + 1)

/-- `find_bucket`, line 283 (cooperative unlink of a marked node):
`MarkedPtr(next_node, false, expected_curr.tag() + 1)`. -/
def findUnlinkDesired (nextNode : Nat) (expectedCurr : MarkedPtr) : MarkedPtr :=
  MarkedPtr.pack nextNode false (expectedCurr.tag + 1)

/-- `rehash_bucket`, line 341: `MarkedPtr(new_node, false, expected.tag() + 1)`.
(The new array is private to the single resizer, so the first CAS at line
343 is the one that succeeds.) -/
def rehashDesired (newNode : Nat) (expected : MarkedPtr) : MarkedPtr :=
  MarkedPtr.pack newNode false (expected.tag + 1)

/-! ## Safe memory reclamation: the store of `retire_node` -/

/-- A node viewed at the tagged-reference level: key and `next` word. -/
structure NodeH where
  key : Nat
  next : MarkedPtr
deriving DecidableEq

/-- `retire_node` (lines 382-396) threads the node onto the retired list by
`node->next.store(MarkedPtr(old_head, false, 0))` (line 385): it overwrites
the node's `next` field with an unmarked pointer to the old retired head. -/
def retireNodeWrite (oldHead : Nat) (n : NodeH) : NodeH :=
  ⟨n.key, MarkedPtr.pack oldHead false 0⟩

/-! ## Bucket lists and the sequential execution of the operations

A bucket is a Lean list of nodes, head first, in the order `find_bucket`
traverses it.  `NodeR.marked` mirrors the mark bit of the node's `next`
field.  With a single operator every CAS succeeds and every re-check
(`insert` line 159, `remove` lines 191/196, `find_bucket` lines 268/277)
re-reads the value just read, so each retry loop runs one iteration; the
functions below are those single-pass executions. -/

/-- A list node: key, value, and the mark bit of its `next` field. -/
structure NodeR where
  key : Nat
  value : Nat
  marked : Bool
deriving DecidableEq

/-- Result of one operation on one bucket: the boolean returned, the
bucket list afterwards, and the nodes passed to `retire_node`. -/
structure BRes where
  ok : Bool
  list : List NodeR
  ret : List NodeR
deriving DecidableEq

/-- Result of `find_bucket` on one bucket: the bucket list afterwards
(marked nodes met on the way are unlinked, lines 275-288), the node
returned as `curr` (first unmarked node with key ≥ k, line 290, or none
at end of list, line 259), and the nodes retired (line 285). -/
structure FRes where
  list : List NodeR
  found : Option NodeR
  ret : List NodeR
deriving DecidableEq

/-- `find_bucket` (lines 243-297) on one bucket.  A marked node is
unlinked by the CAS at line 284 and retired (line 285); traversal stops
at the first unmarked node whose key is ≥ `k` (line 290); nodes after
the stopping point are left untouched. -/
def findB (k : Nat) : List NodeR → FRes
  | [] => ⟨[], none, []⟩
  | n :: rest =>
    if n.marked then
      let r := findB k rest
      ⟨r.list, r.found, n :: r.ret⟩
    else if k ≤ n.key then ⟨n :: rest, some n, []⟩
    else
      let r := findB k rest
      ⟨n :: r.list, r.found, r.ret⟩

/-- `insert` (lines 136-172) on the bucket of `k`: `find_bucket`, then
either return false on an equal key (lines 146-149) or link the new
unmarked node in front of `curr` by the CAS at line 162. -/
def insertB (k v : Nat) : List NodeR → BRes
  | [] => ⟨true, [⟨k, v, false⟩], []⟩
  | n :: rest =>
    if n.marked then
      let r := insertB k v rest
      ⟨r.ok, r.list, n :: r.ret⟩
    else if k ≤ n.key then
      if n.key = k then ⟨false, n :: rest, []⟩
      else ⟨true, ⟨k, v, false⟩ :: n :: rest, []⟩
    else
      let r := insertB k v rest
      ⟨r.ok, n :: r.list, r.ret⟩

/-- `remove` (lines 174-210) on the bucket of `k`: `find_bucket`, then
return false if no live node carries `k` (line 181), otherwise mark the
node (CAS line 191), unlink it (CAS line 200) and retire it (line 201).
The retired node carries its mark, set by the line-191 CAS. -/
def removeB (k : Nat) : List NodeR → BRes
  | [] => ⟨false, [], []⟩
  | n :: rest =>
    if n.marked then
      let r := removeB k rest
      ⟨r.ok, r.list, n :: r.ret⟩
    else if k ≤ n.key then
      if n.key = k then ⟨true, rest, [⟨n.key, n.value, true⟩]⟩
      else ⟨false, n :: rest, []⟩
    else
      let r := removeB k rest
      ⟨r.ok, n :: r.list, r.ret⟩

/-! ## The table -/

/-- The directory state: the current bucket array, the live `count`, and
the retired nodes (order abstracted). -/
structure Table where
  buckets : List (List NodeR)
  count : Nat
  retired : List NodeR
deriving DecidableEq

/-- `MIN_BUCKETS` (line 91). -/
def MIN_BUCKETS : Nat := 64

/-- `hash(key, size) = std::hash<K>{}(key) % size` (lines 227-229);
`std::hash` on the integral keys of the drivers is the identity. -/
def lfhash (k sz : Nat) : Nat := k % sz

/-- Bucket `i` of the table. -/
def bucketAt (t : Table) (i : Nat) : List NodeR := t.buckets.getD i []

/-- `rehash_bucket` (lines 327-350): walk the old bucket head to tail and
push a fresh copy of EVERY node — the mark of `curr->next` is never
consulted — at the head of its new bucket (`new_node->next.store(expected)`
then CAS the head, lines 338-345).  The copy's mark comes from the new
bucket's head word, which is always unmarked, so the copy is live. -/
def rehashBucket : List NodeR → List (List NodeR) → List (List NodeR)
  | [], nbs => nbs
  | n :: rest, nbs =>
    let idx := lfhash n.key nbs.length
    rehashBucket rest (nbs.set idx (⟨n.key, n.value, false⟩ :: nbs.getD idx []))

/-- The loop of `try_resize` at lines 310-312: rehash old buckets
`0, 1, …, size-1` in order into the new array. -/
def rehashAll : List (List NodeR) → List (List NodeR) → List (List NodeR)
  | [], nbs => nbs
  | b :: rest, nbs => rehashAll rest (rehashBucket b nbs)

/-- `try_resize` (lines 303-322) for a single operator: the `resizing`
flag is free, so the exchange wins; the rebuild runs; the directory CAS
at line 314 succeeds.  If the new size equals the old one, return
unchanged (line 305). -/
def tryResize (t : Table) (newSize : Nat) : Table :=
  if newSize = t.buckets.length then t
  else ⟨rehashAll t.buckets (List.replicate newSize []), t.count, t.retired⟩

/-- `insert` (lines 136-172) on the table: hash, run the bucket step,
and on success increment `count` (line 163) and double the array when
`count / size > 2.0`, i.e. `2 * size < count` (lines 166-167). -/
def insertT (t : Table) (k v : Nat) : Bool × Table :=
  let idx := lfhash k t.buckets.length
  let r := insertB k v (bucketAt t idx)
  if r.ok then
    let c := t.count + 1
    let t' : Table := ⟨t.buckets.set idx r.list, c, r.ret ++ t.retired⟩
    if 2 * t.buckets.length < c then (true, tryResize t' (t.buckets.length * 2))
    else (true, t')
  else (false, ⟨t.buckets.set idx r.list, t.count, r.ret ++ t.retired⟩)

/-- `remove` (lines 174-210) on the table: hash, run the bucket step, and
on success decrement `count` (line 203) and halve the array — never below
`MIN_BUCKETS` — when `count / size < 0.25`, i.e. `4 * count < size`
(lines 204-205). -/
def removeT (t : Table) (k : Nat) : Bool × Table :=
  let idx := lfhash k t.buckets.length
  let r := removeB k (bucketAt t idx)
  if r.ok then
    let c := t.count - 1
    let t' : Table := ⟨t.buckets.set idx r.list, c, r.ret ++ t.retired⟩
    if 4 * c < t.buckets.length then
      (true, tryResize t' (max MIN_BUCKETS (t.buckets.length / 2)))
    else (true, t')
  else (false, ⟨t.buckets.set idx r.list, t.count, r.ret ++ t.retired⟩)

/-- `contains` (lines 215-220): `find_bucket`, then
`curr && curr->key == key`.  The traversal may unlink and retire marked
nodes (lines 275-288), hence the returned table. -/
def containsT (t : Table) (k : Nat) : Bool × Table :=
  let idx := lfhash k t.buckets.length
  let r := findB k (bucketAt t idx)
  (match r.found with
   | some n => n.key = k
   | none => false,
   ⟨t.buckets.set idx r.list, t.count, r.ret ++ t.retired⟩)

/-- The fresh table of the constructor (line 123): `MIN_BUCKETS` empty
buckets, count 0. -/
def mkTable : Table := ⟨List.replicate MIN_BUCKETS [], 0, []⟩

/-- One public operation. -/
inductive Op where
  | ins (k v : Nat)
  | rem (k : Nat)
  | qry (k : Nat)
deriving DecidableEq

/-- Run one operation, returning its boolean and the next table. -/
def applyOp (t : Table) : Op → Bool × Table
  | .ins k v => insertT t k v
  | .rem k => removeT t k
  | .qry k => containsT t k

/-- Run a sequence of operations from a table (state only). -/
def runFrom (t : Table) : List Op → Table
  | [] => t
  | op :: rest => runFrom (applyOp t op).2 rest

/-- Run a sequence of operations from the fresh table. -/
def runOps (ops : List Op) : Table := runFrom mkTable ops

/-- Run a sequence of operations from the fresh table, collecting the
boolean each operation returns. -/
def runTrace (t : Table) : List Op → List Bool
  | [] => []
  | op :: rest =>
    match applyOp t op with
    | (b, t') => b :: runTrace t' rest

/-! ## The retry loop of `remove` under interference

`remove` (lines 174-210) is a `while (true)` loop; each pass performs the
loads and CASes below.  Under concurrency the values loaded can change
between passes (and between the line-191 CAS and the line-195 load), so a
pass is driven by an observation record; a full invocation is driven by a
schedule of observations, one per pass. -/

/-- What one pass of `remove`'s loop observes. -/
structure RemoveObs where
  /-- `curr` returned by `find_bucket` at line 179 (none: end of list). -/
  found : Option NodeR
  /-- mark bit of `curr->next` loaded at line 184. -/
  currNextMarked : Bool
  /-- outcome of the marking CAS at line 191. -/
  markCasOk : Bool
  /-- mark bit of `prev_ptr->load()` at line 195. -/
  prevMarked : Bool
  /-- whether `get_node(prev_expected) == curr` at line 196. -/
  prevPointsToCurr : Bool
  /-- outcome of the physical-unlink CAS at line 200. -/
  unlinkCasOk : Bool
deriving DecidableEq

/-- Control outcome of one pass of `remove`'s loop. -/
inductive RemStep where
  | retTrue
  | retFalse
  | retry
deriving DecidableEq

/-- One pass of `remove`'s loop (lines 176-208), given its observations.
Returns the control outcome and whether this pass's marking CAS
(line 191) succeeded. -/
def removeIter (k : Nat) (o : RemoveObs) : RemStep × Bool :=
  match o.found with
  | none => (.retFalse, false)
  | some n =>
    if n.key ≠ k then (.retFalse, false)          -- line 181
    else if o.currNextMarked then (.retry, false)  -- line 185
    else if !o.markCasOk then (.retry, false)      -- line 191
    else if o.prevMarked || !o.prevPointsToCurr then (.retry, true)  -- line 196
    else if o.unlinkCasOk then (.retTrue, true)    -- lines 200-207
    else (.retry, true)                            -- line 200 fails: loop

/-- A full `remove(k)` against a schedule of per-pass observations:
the boolean returned and whether any pass's marking CAS succeeded
(`none` if the schedule is exhausted before the loop exits). -/
def removeRun (k : Nat) : List RemoveObs → Option (Bool × Bool)
  | [] => none
  | o :: rest =>
    match removeIter k o with
    | (.retTrue, m) => some (true, m)
    | (.retFalse, m) => some (false, m)
    | (.retry, m) => (removeRun k rest).map fun p => (p.1, m || p.2)

/-- A schedule in which pass 1 finds the live node with key 5 and marks
it (CAS line 191 succeeds), but another operator has meanwhile marked the
predecessor, so the line-195/196 re-check fails and the loop retries;
pass 2's `find_bucket` no longer finds key 5 (the marked node was
unlinked by the retry traversal). -/
def removeSched : List RemoveObs :=
  [⟨some ⟨5, 0, false⟩, false, true, true, true, false⟩,
   ⟨none, false, false, false, false, false⟩]

/-! ## Concrete states and sequences used to evaluate the code -/

/-- A table whose bucket 1 holds one logically deleted (marked) node with
key 1 — the state between a `remove(1)`'s marking CAS (line 191) and its
physical unlink. -/
def tMarked : Table :=
  ⟨(List.replicate MIN_BUCKETS []).set 1 [⟨1, 0, true⟩], 0, []⟩

/-- `insert(1,0), insert(2,0), …, insert(129,0)`: the 129th successful
insert drives `count/size = 129/64` above 2.0 and triggers the resize to
128 buckets. -/
def ins129 : List Op := (List.range 129).map fun i => Op.ins (i + 1) 0

/-- An old bucket array whose bucket 5 holds a single logically deleted
(marked) node with key 5. -/
def oldMarked : List (List NodeR) :=
  (List.replicate 64 []).set 5 [⟨5, 0, true⟩]

/-- A quiescent-bound concurrent state.  From a fresh table, `insert(5,0)`
and `insert(69,0)` put `[5, 69]` into bucket 5 with `count = 2`.  Operator
A's `remove(69)` then finds node 69 and wins the marking CAS (line 191);
before A's line-195 load, operator B's `remove(5)` runs to completion: it
marks node 5, unlinks it from the bucket head, retires it, and decrements
`count` to 1.  The state at that point — bucket 5 holding only the marked
node 69, `count = 1`, node 5 retired — is `tDrift`.  A's loop is still in
flight: its line-195 load will see node 5's marked next field and
`continue`, and its retry pass runs on `tDrift`. -/
def tDrift : Table :=
  ⟨(List.replicate MIN_BUCKETS []).set 5 [⟨69, 0, true⟩], 1, [⟨5, 0, true⟩]⟩

/-! ## Measures and invariants -/

/-- Number of live (unmarked) nodes in one bucket. -/
def liveLen (l : List NodeR) : Nat := (l.filter fun n => !n.marked).length

/-- Number of live (unmarked) nodes reachable from a bucket array. -/
def liveSum (bs : List (List NodeR)) : Nat := (bs.map liveLen).sum

/-- Total number of nodes reachable from a bucket array. -/
def totalLen (bs : List (List NodeR)) : Nat := (bs.map List.length).sum

/-- Every node of the bucket is live (unmarked). -/
def allUn (l : List NodeR) : Bool := l.all fun n => !n.marked

/-- The bucket is sorted strictly ascending by key. -/
def sortedAscB : List NodeR → Bool
  | [] => true
  | [_] => true
  | a :: b :: rest => (decide (a.key < b.key)) && sortedAscB (b :: rest)

/-- Sequential-state invariant: `count` equals the number of live nodes,
every reachable node is unmarked, and the array is non-empty. -/
def Inv (t : Table) : Prop :=
  t.count = liveSum t.buckets ∧ (∀ b ∈ t.buckets, allUn b = true) ∧
    0 < t.buckets.length

/-! ## Supporting lemmas -/

/-- On an all-unmarked bucket, `find_bucket` changes nothing and retires
nothing. -/
theorem findB_of_allUn (k : Nat) :
    ∀ l, allUn l = true → (findB k l).list = l ∧ (findB k l).ret = [] := by
  intro l
  induction l with
  | nil => intro _; simp [findB]
  | cons n rest ih =>
    intro h
    rw [allUn, List.all_cons, Bool.and_eq_true] at h
    obtain ⟨hn, hr⟩ := h
    have hmark : n.marked = false := by simpa using hn
    have hrest := ih hr
    by_cases hk : k ≤ n.key
    · simp [findB, hmark, hk]
    · simp [findB, hmark, hk, hrest.1, hrest.2]

/-- On an all-unmarked bucket, `insert`'s bucket step retires nothing,
keeps all nodes unmarked, adds exactly one node on success, and changes
nothing on failure. -/
theorem insertB_of_allUn (k v : Nat) :
    ∀ l, allUn l = true →
      (insertB k v l).ret = [] ∧ allUn (insertB k v l).list = true ∧
      ((insertB k v l).ok = true → (insertB k v l).list.length = l.length + 1) ∧
      ((insertB k v l).ok = false → (insertB k v l).list = l) := by
  intro l
  induction l with
  | nil => intro _; simp [insertB, allUn]
  | cons n rest ih =>
    intro h
    rw [allUn, List.all_cons, Bool.and_eq_true] at h
    obtain ⟨hn, hr⟩ := h
    have hmark : n.marked = false := by simpa using hn
    obtain ⟨ih1, ih2, ih3, ih4⟩ := ih hr
    by_cases hk : k ≤ n.key
    · by_cases he : n.key = k
      · simp [insertB, hmark, hk, he, allUn, List.all_cons, hn]
        simpa [allUn] using hr
      · simp [insertB, hmark, hk, he, allUn, List.all_cons, hn]
        simpa [allUn] using hr
    · simp only [insertB, hmark, Bool.false_eq_true, if_false, hk, if_neg hk]
      refine ⟨ih1, ?_, ?_, ?_⟩
      · rw [allUn, List.all_cons, Bool.and_eq_true]
        exact ⟨by simpa using hmark, ih2⟩
      · intro hok
        simp [List.length_cons, ih3 hok]
      · intro hok
        simp [ih4 hok]

/-- On an all-unmarked bucket, `remove`'s bucket step keeps all nodes
unmarked, removes exactly one node on success, and changes nothing and
retires nothing on failure. -/
theorem removeB_of_allUn (k : Nat) :
    ∀ l, allUn l = true →
      allUn (removeB k l).list = true ∧
      ((removeB k l).ok = true → (removeB k l).list.length + 1 = l.length) ∧
      ((removeB k l).ok = false → (removeB k l).list = l ∧ (removeB k l).ret = []) := by
  intro l
  induction l with
  | nil => intro _; simp [removeB, allUn]
  | cons n rest ih =>
    intro h
    rw [allUn, List.all_cons, Bool.and_eq_true] at h
    obtain ⟨hn, hr⟩ := h
    have hmark : n.marked = false := by simpa using hn
    obtain ⟨ih1, ih2, ih3⟩ := ih hr
    by_cases hk : k ≤ n.key
    · by_cases he : n.key = k
      · simpa [removeB, hmark, hk, he, allUn] using hr
      · simp [removeB, hmark, hk, he, allUn, List.all_cons, hn]
        simpa [allUn] using hr
    · simp only [removeB, hmark, Bool.false_eq_true, if_false, if_neg hk]
      refine ⟨?_, ?_, ?_⟩
      · rw [allUn, List.all_cons, Bool.and_eq_true]
        exact ⟨by simpa using hmark, ih1⟩
      · intro hok
        simp [List.length_cons, ← ih2 hok]
      · intro hok
        simp [ih3 hok]

/-- If no live node of the bucket carries key `k`, `remove`'s bucket step
reports false. -/
theorem removeB_absent (k : Nat) :
    ∀ l, (∀ n ∈ l, n.marked = false → n.key ≠ k) → (removeB k l).ok = false := by
  intro l
  induction l with
  | nil => intro _; simp [removeB]
  | cons n rest ih =>
    intro h
    have hrest : ∀ m ∈ rest, m.marked = false → m.key ≠ k := by
      intro m hm
      exact h m (List.mem_cons_of_mem n hm)
    by_cases hm : n.marked
    · simp [removeB, hm, ih hrest]
    · have hne : n.key ≠ k := h n (List.mem_cons_self n rest) (by simpa using hm)
      by_cases hk : k ≤ n.key
      · simp [removeB, hm, hk, hne]
      · simp [removeB, hm, hk, ih hrest]

/-- All-unmarked buckets count every node as live. -/
theorem liveLen_of_allUn : ∀ l, allUn l = true → liveLen l = l.length := by
  intro l h
  rw [allUn] at h
  rw [liveLen, List.filter_eq_self.mpr]
  intro n hn
  exact List.all_eq_true.mp h n hn

/-- Unfolding `liveSum` on a cons. -/
theorem liveSum_cons (b : List NodeR) (bs : List (List NodeR)) :
    liveSum (b :: bs) = liveLen b + liveSum bs := by
  simp [liveSum]

/-- Replacing bucket `i` changes the live total by the difference of the
bucket's live lengths. -/
theorem liveSum_set :
    ∀ (bs : List (List NodeR)) (i : Nat) (l : List NodeR), i < bs.length →
      liveSum (bs.set i l) + liveLen (bs.getD i []) = liveSum bs + liveLen l := by
  intro bs
  induction bs with
  | nil => intro i l h; simp at h
  | cons b rest ih =>
    intro i l h
    cases i with
    | zero =>
      rw [List.set_cons_zero, List.getD_cons_zero, liveSum_cons, liveSum_cons]
      omega
    | succ j =>
      have hj : j < rest.length := by simpa using h
      have hrec := ih j l hj
      rw [List.set_cons_succ, List.getD_cons_succ, liveSum_cons, liveSum_cons]
      omega

/-- A bucket's live length never exceeds the live total. -/
theorem liveLen_getD_le : ∀ (bs : List (List NodeR)) (i : Nat),
    liveLen (bs.getD i []) ≤ liveSum bs := by
  intro bs
  induction bs with
  | nil => intro i; simp [liveLen, liveSum]
  | cons b rest ih =>
    intro i
    cases i with
    | zero =>
      rw [List.getD_cons_zero, liveSum_cons]
      omega
    | succ j =>
      have := ih j
      rw [List.getD_cons_succ, liveSum_cons]
      omega

/-- Replacing a bucket by an all-unmarked one preserves all-unmarkedness. -/
theorem allUn_set (bs : List (List NodeR)) (i : Nat) (l : List NodeR)
    (hb : ∀ b ∈ bs, allUn b = true) (hl : allUn l = true) :
    ∀ b ∈ bs.set i l, allUn b = true := by
  intro b hbm
  rcases List.mem_or_eq_of_mem_set hbm with h | h
  · exact hb b h
  · subst h; exact hl

/-- Writing back the bucket that was read leaves the array unchanged. -/
theorem set_getD_self : ∀ (bs : List (List NodeR)) (i : Nat), i < bs.length →
    bs.set i (bs.getD i []) = bs := by
  intro bs
  induction bs with
  | nil => intro i h; simp at h
  | cons b rest ih =>
    intro i h
    cases i with
    | zero => rw [List.getD_cons_zero, List.set_cons_zero]
    | succ j =>
      rw [List.getD_cons_succ, List.set_cons_succ, ih j (by simpa using h)]

/-- A bucket read at a valid index is one of the array's buckets. -/
theorem getD_mem : ∀ (bs : List (List NodeR)) (i : Nat), i < bs.length →
    bs.getD i [] ∈ bs := by
  intro bs
  induction bs with
  | nil => intro i h; simp at h
  | cons b rest ih =>
    intro i h
    cases i with
    | zero => simp
    | succ j => simpa using List.mem_cons_of_mem b (ih j (by simpa using h))

/-- `rehash_bucket` preserves the length of the new array. -/
theorem rehashBucket_length : ∀ (old : List NodeR) (nbs : List (List NodeR)),
    (rehashBucket old nbs).length = nbs.length := by
  intro old
  induction old with
  | nil => intro nbs; simp [rehashBucket]
  | cons n rest ih =>
    intro nbs
    rw [rehashBucket, ih, List.length_set]

/-- `rehash_bucket` adds every node of the old bucket — marked or not —
as a live node of the new array. -/
theorem rehashBucket_liveSum : ∀ (old : List NodeR) (nbs : List (List NodeR)),
    0 < nbs.length →
    liveSum (rehashBucket old nbs) = old.length + liveSum nbs := by
  intro old
  induction old with
  | nil => intro nbs _; simp [rehashBucket]
  | cons n rest ih =>
    intro nbs hpos
    have hidx : lfhash n.key nbs.length < nbs.length := Nat.mod_lt _ hpos
    have hset := liveSum_set nbs (lfhash n.key nbs.length)
      (⟨n.key, n.value, false⟩ :: nbs.getD (lfhash n.key nbs.length) []) hidx
    have hcons : liveLen (⟨n.key, n.value, false⟩ ::
        nbs.getD (lfhash n.key nbs.length) []) =
        liveLen (nbs.getD (lfhash n.key nbs.length) []) + 1 := by
      simp [liveLen]
    rw [rehashBucket, ih _ (by rw [List.length_set]; exact hpos)]
    rw [List.length_cons]
    omega

/-- `rehash_bucket` keeps every bucket of the new array all-unmarked
(the copies it pushes are unmarked). -/
theorem rehashBucket_allUn : ∀ (old : List NodeR) (nbs : List (List NodeR)),
    0 < nbs.length → (∀ b ∈ nbs, allUn b = true) →
    ∀ b ∈ rehashBucket old nbs, allUn b = true := by
  intro old
  induction old with
  | nil => intro nbs _ h; simpa [rehashBucket] using h
  | cons n rest ih =>
    intro nbs hpos hun
    have hidx : lfhash n.key nbs.length < nbs.length := Nat.mod_lt _ hpos
    have hbun : allUn (⟨n.key, n.value, false⟩ ::
        nbs.getD (lfhash n.key nbs.length) []) = true := by
      rw [allUn, List.all_cons, Bool.and_eq_true]
      exact ⟨by simp, hun _ (getD_mem nbs _ hidx)⟩
    rw [rehashBucket]
    exact ih _ (by rw [List.length_set]; exact hpos) (allUn_set nbs _ _ hun hbun)

/-- The resize loop preserves the length of the new array. -/
theorem rehashAll_length : ∀ (olds nbs : List (List NodeR)),
    (rehashAll olds nbs).length = nbs.length := by
  intro olds
  induction olds with
  | nil => intro nbs; simp [rehashAll]
  | cons b rest ih =>
    intro nbs
    rw [rehashAll, ih, rehashBucket_length]

/-- The resize loop turns every node of the old array — marked or not —
into a live node of the new array. -/
theorem rehashAll_liveSum : ∀ (olds nbs : List (List NodeR)), 0 < nbs.length →
    liveSum (rehashAll olds nbs) = totalLen olds + liveSum nbs := by
  intro olds
  induction olds with
  | nil => intro nbs _; simp [rehashAll, totalLen]
  | cons b rest ih =>
    intro nbs hpos
    rw [rehashAll, ih _ (by rw [rehashBucket_length]; exact hpos),
      rehashBucket_liveSum b nbs hpos]
    simp [totalLen]
    omega

/-- The resize loop keeps every bucket of the new array all-unmarked. -/
theorem rehashAll_allUn : ∀ (olds nbs : List (List NodeR)), 0 < nbs.length →
    (∀ b ∈ nbs, allUn b = true) →
    ∀ b ∈ rehashAll olds nbs, allUn b = true := by
  intro olds
  induction olds with
  | nil => intro nbs _ h; simpa [rehashAll] using h
  | cons b rest ih =>
    intro nbs hpos hun
    rw [rehashAll]
    exact ih _ (by rw [rehashBucket_length]; exact hpos)
      (rehashBucket_allUn b nbs hpos hun)

/-- In an all-unmarked array the total node count is the live count. -/
theorem totalLen_eq_liveSum : ∀ (bs : List (List NodeR)),
    (∀ b ∈ bs, allUn b = true) → totalLen bs = liveSum bs := by
  intro bs
  induction bs with
  | nil => intro _; simp [totalLen, liveSum]
  | cons b rest ih =>
    intro h
    have hb := h b (List.mem_cons_self b rest)
    have hr := ih fun x hx => h x (List.mem_cons_of_mem b hx)
    rw [liveSum_cons, liveLen_of_allUn b hb]
    simp only [totalLen, List.map_cons, List.sum_cons] at *
    omega

/-- `try_resize` preserves the sequential invariant. -/
theorem tryResize_inv (t : Table) (n : Nat) (hn : 0 < n) (h : Inv t) :
    Inv (tryResize t n) := by
  obtain ⟨hc, hu, hp⟩ := h
  rw [tryResize]
  by_cases he : n = t.buckets.length
  · simp only [he, if_true]
    exact ⟨hc, hu, hp⟩
  · simp only [he, if_false]
    have hrep : ∀ b ∈ List.replicate n ([] : List NodeR), allUn b = true := by
      intro b hb
      rw [List.eq_of_mem_replicate hb]
      rfl
    have hreplen : (List.replicate n ([] : List NodeR)).length = n := by simp
    have hrepsum : liveSum (List.replicate n ([] : List NodeR)) = 0 := by
      simp [liveSum, liveLen, List.map_replicate]
    refine ⟨?_, ?_, ?_⟩
    · show t.count = liveSum (rehashAll t.buckets (List.replicate n []))
      rw [rehashAll_liveSum _ _ (by rw [hreplen]; exact hn), hrepsum,
        totalLen_eq_liveSum _ hu]
      omega
    · exact rehashAll_allUn _ _ (by rw [hreplen]; exact hn) hrep
    · show 0 < (rehashAll t.buckets (List.replicate n [])).length
      rw [rehashAll_length, hreplen]
      exact hn

/-- `insert` preserves the sequential invariant. -/
theorem insertT_inv (t : Table) (k v : Nat) (h : Inv t) : Inv (insertT t k v).2 := by
  obtain ⟨hc, hu, hp⟩ := h
  have hidx : lfhash k t.buckets.length < t.buckets.length := Nat.mod_lt _ hp
  have hbun : allUn (bucketAt t (lfhash k t.buckets.length)) = true :=
    hu _ (getD_mem _ _ hidx)
  obtain ⟨h1, h2, h3, h4⟩ := insertB_of_allUn k v _ hbun
  have hset := liveSum_set t.buckets (lfhash k t.buckets.length)
    (insertB k v (bucketAt t (lfhash k t.buckets.length))).list hidx
  have hgd : t.buckets.getD (lfhash k t.buckets.length) [] =
      bucketAt t (lfhash k t.buckets.length) := rfl
  rw [hgd] at hset
  have hll : liveLen (bucketAt t (lfhash k t.buckets.length)) =
      (bucketAt t (lfhash k t.buckets.length)).length := liveLen_of_allUn _ hbun
  have hlr : liveLen (insertB k v (bucketAt t (lfhash k t.buckets.length))).list =
      (insertB k v (bucketAt t (lfhash k t.buckets.length))).list.length :=
    liveLen_of_allUn _ h2
  unfold insertT
  dsimp only
  split
  next hok =>
    have hlen := h3 hok
    have hinv' : Inv ⟨t.buckets.set (lfhash k t.buckets.length)
        (insertB k v (bucketAt t (lfhash k t.buckets.length))).list,
        t.count + 1,
        (insertB k v (bucketAt t (lfhash k t.buckets.length))).ret ++ t.retired⟩ := by
      refine ⟨?_, ?_, ?_⟩
      · show t.count + 1 = liveSum (t.buckets.set _ _)
        omega
      · exact allUn_set _ _ _ hu h2
      · show 0 < (t.buckets.set _ _).length
        rw [List.length_set]
        exact hp
    split
    · exact tryResize_inv _ _ (by omega) hinv'
    · exact hinv'
  next hok =>
    have hne : (insertB k v (bucketAt t (lfhash k t.buckets.length))).ok = false := by
      revert hok
      cases (insertB k v (bucketAt t (lfhash k t.buckets.length))).ok <;> simp
    rw [h4 hne]
    refine ⟨?_, ?_, ?_⟩
    · show t.count = liveSum (t.buckets.set _ _)
      rw [show t.buckets.set (lfhash k t.buckets.length)
          (bucketAt t (lfhash k t.buckets.length)) = t.buckets from
          set_getD_self _ _ hidx]
      exact hc
    · exact allUn_set _ _ _ hu hbun
    · show 0 < (t.buckets.set _ _).length
      rw [List.length_set]
      exact hp

/-- `remove` preserves the sequential invariant. -/
theorem removeT_inv (t : Table) (k : Nat) (h : Inv t) : Inv (removeT t k).2 := by
  obtain ⟨hc, hu, hp⟩ := h
  have hidx : lfhash k t.buckets.length < t.buckets.length := Nat.mod_lt _ hp
  have hbun : allUn (bucketAt t (lfhash k t.buckets.length)) = true :=
    hu _ (getD_mem _ _ hidx)
  obtain ⟨h1, h2, h3⟩ := removeB_of_allUn k _ hbun
  have hset := liveSum_set t.buckets (lfhash k t.buckets.length)
    (removeB k (bucketAt t (lfhash k t.buckets.length))).list hidx
  have hgd : t.buckets.getD (lfhash k t.buckets.length) [] =
      bucketAt t (lfhash k t.buckets.length) := rfl
  rw [hgd] at hset
  have hge := liveLen_getD_le t.buckets (lfhash k t.buckets.length)
  rw [hgd] at hge
  have hll : liveLen (bucketAt t (lfhash k t.buckets.length)) =
      (bucketAt t (lfhash k t.buckets.length)).length := liveLen_of_allUn _ hbun
  have hlr : liveLen (removeB k (bucketAt t (lfhash k t.buckets.length))).list =
      (removeB k (bucketAt t (lfhash k t.buckets.length))).list.length :=
    liveLen_of_allUn _ h1
  unfold removeT
  dsimp only
  split
  next hok =>
    have hlen := h2 hok
    have hinv' : Inv ⟨t.buckets.set (lfhash k t.buckets.length)
        (removeB k (bucketAt t (lfhash k t.buckets.length))).list,
        t.count - 1,
        (removeB k (bucketAt t (lfhash k t.buckets.length))).ret ++ t.retired⟩ := by
      refine ⟨?_, ?_, ?_⟩
      · show t.count - 1 = liveSum (t.buckets.set _ _)
        omega
      · exact allUn_set _ _ _ hu h1
      · show 0 < (t.buckets.set _ _).length
        rw [List.length_set]
        exact hp
    split
    · refine tryResize_inv _ _ ?_ hinv'
      have : MIN_BUCKETS ≤ max MIN_BUCKETS (t.buckets.length / 2) := le_max_left _ _
      have : 0 < MIN_BUCKETS := by decide
      omega
    · exact hinv'
  next hok =>
    have hne : (removeB k (bucketAt t (lfhash k t.buckets.length))).ok = false := by
      revert hok
      cases (removeB k (bucketAt t (lfhash k t.buckets.length))).ok <;> simp
    rw [(h3 hne).1]
    refine ⟨?_, ?_, ?_⟩
    · show t.count = liveSum (t.buckets.set _ _)
      rw [show t.buckets.set (lfhash k t.buckets.length)
          (bucketAt t (lfhash k t.buckets.length)) = t.buckets from
          set_getD_self _ _ hidx]
      exact hc
    · exact allUn_set _ _ _ hu hbun
    · show 0 < (t.buckets.set _ _).length
      rw [List.length_set]
      exact hp

/-- `contains` preserves the sequential invariant. -/
theorem containsT_inv (t : Table) (k : Nat) (h : Inv t) : Inv (containsT t k).2 := by
  obtain ⟨hc, hu, hp⟩ := h
  have hidx : lfhash k t.buckets.length < t.buckets.length := Nat.mod_lt _ hp
  have hbun : allUn (bucketAt t (lfhash k t.buckets.length)) = true :=
    hu _ (getD_mem _ _ hidx)
  obtain ⟨h1, h2⟩ := findB_of_allUn k _ hbun
  unfold containsT
  dsimp only
  rw [h1]
  refine ⟨?_, ?_, ?_⟩
  · show t.count = liveSum (t.buckets.set _ _)
    rw [show t.buckets.set (lfhash k t.buckets.length)
        (bucketAt t (lfhash k t.buckets.length)) = t.buckets from
        set_getD_self _ _ hidx]
    exact hc
  · exact allUn_set _ _ _ hu hbun
  · show 0 < (t.buckets.set _ _).length
    rw [List.length_set]
    exact hp

/-- Every operation preserves the sequential invariant. -/
theorem applyOp_inv (t : Table) (op : Op) (h : Inv t) : Inv (applyOp t op).2 := by
  cases op with
  | ins k v => exact insertT_inv t k v h
  | rem k => exact removeT_inv t k h
  | qry k => exact containsT_inv t k h

/-- The invariant holds along any run. -/
theorem runFrom_inv : ∀ (ops : List Op) (t : Table), Inv t → Inv (runFrom t ops) := by
  intro ops
  induction ops with
  | nil => intro t h; exact h
  | cons op rest ih => intro t h; exact ih _ (applyOp_inv t op h)

/-- The fresh table satisfies the invariant. -/
theorem mkTable_inv : Inv mkTable := by
  refine ⟨?_, ?_, ?_⟩
  · decide
  · decide
  · decide

/-- `find_bucket` list operations move marked nodes only by unlinking
them: a marked node present in the output bucket of `insert`'s bucket
step was already present, with its mark set, in the input bucket. -/
theorem insertB_marked_mem (k v : Nat) :
    ∀ l n, n ∈ (insertB k v l).list → n.marked = true → n ∈ l := by
  intro l
  induction l with
  | nil =>
    intro n hn hm
    simp [insertB] at hn
    rw [hn] at hm
    simp at hm
  | cons m rest ih =>
    intro n hn hm
    by_cases hmm : m.marked
    · simp only [insertB, hmm, if_true] at hn
      exact List.mem_cons_of_mem m (ih n hn hm)
    · by_cases hk : k ≤ m.key
      · by_cases he : m.key = k
        · simp only [insertB] at hn
          rw [if_neg hmm, if_pos hk, if_pos he] at hn
          exact hn
        · simp only [insertB] at hn
          rw [if_neg hmm, if_pos hk, if_neg he] at hn
          rcases List.mem_cons.mp hn with rfl | hn
          · simp at hm
          · simpa using hn
      · simp only [insertB] at hn
        rw [if_neg hmm, if_neg hk] at hn
        rcases List.mem_cons.mp hn with rfl | hn
        · exact List.mem_cons_self _ _
        · exact List.mem_cons_of_mem m (ih n hn hm)

/-- Same statement for `remove`'s bucket step. -/
theorem removeB_marked_mem (k : Nat) :
    ∀ l n, n ∈ (removeB k l).list → n.marked = true → n ∈ l := by
  intro l
  induction l with
  | nil =>
    intro n hn hm
    simp [removeB] at hn
  | cons m rest ih =>
    intro n hn hm
    by_cases hmm : m.marked
    · simp only [removeB, hmm, if_true] at hn
      exact List.mem_cons_of_mem m (ih n hn hm)
    · by_cases hk : k ≤ m.key
      · by_cases he : m.key = k
        · simp only [removeB] at hn
          rw [if_neg hmm, if_pos hk, if_pos he] at hn
          exact List.mem_cons_of_mem m hn
        · simp only [removeB] at hn
          rw [if_neg hmm, if_pos hk, if_neg he] at hn
          exact hn
      · simp only [removeB] at hn
        rw [if_neg hmm, if_neg hk] at hn
        rcases List.mem_cons.mp hn with rfl | hn
        · exact List.mem_cons_self _ _
        · exact List.mem_cons_of_mem m (ih n hn hm)

/-- Same statement for `contains`'s traversal. -/
theorem findB_marked_mem (k : Nat) :
    ∀ l n, n ∈ (findB k l).list → n.marked = true → n ∈ l := by
  intro l
  induction l with
  | nil =>
    intro n hn hm
    simp [findB] at hn
  | cons m rest ih =>
    intro n hn hm
    by_cases hmm : m.marked
    · simp only [findB, hmm, if_true] at hn
      exact List.mem_cons_of_mem m (ih n hn hm)
    · by_cases hk : k ≤ m.key
      · simp only [findB] at hn
        rw [if_neg hmm, if_pos hk] at hn
        exact hn
      · simp only [findB] at hn
        rw [if_neg hmm, if_neg hk] at hn
        rcases List.mem_cons.mp hn with rfl | hn
        · exact List.mem_cons_self _ _
        · exact List.mem_cons_of_mem m (ih n hn hm)

/-- Mark persistence for `insert`'s bucket step: a marked node present in
the input bucket survives — as the same record, mark intact — either in
the output bucket or among the retired nodes; its mark is never
rewritten. -/
theorem insertB_marked_persist (k v : Nat) :
    ∀ l n, n ∈ l → n.marked = true →
      n ∈ (insertB k v l).list ∨ n ∈ (insertB k v l).ret := by
  intro l
  induction l with
  | nil =>
    intro n hn hm
    simp at hn
  | cons m rest ih =>
    intro n hn hm
    by_cases hmm : m.marked
    · rcases List.mem_cons.mp hn with rfl | hn
      · right
        simp only [insertB, hmm, if_true]
        exact List.mem_cons_self _ _
      · rcases ih n hn hm with h | h
        · left
          simpa only [insertB, hmm, if_true] using h
        · right
          simp only [insertB, hmm, if_true]
          exact List.mem_cons_of_mem m h
    · by_cases hk : k ≤ m.key
      · by_cases he : m.key = k
        · left
          simp only [insertB]
          rw [if_neg hmm, if_pos hk, if_pos he]
          exact hn
        · left
          simp only [insertB]
          rw [if_neg hmm, if_pos hk, if_neg he]
          exact List.mem_cons_of_mem _ hn
      · rcases List.mem_cons.mp hn with rfl | hn
        · exact absurd hm hmm
        · rcases ih n hn hm with h | h
          · left
            simp only [insertB]
            rw [if_neg hmm, if_neg hk]
            exact List.mem_cons_of_mem m h
          · right
            simp only [insertB]
            rw [if_neg hmm, if_neg hk]
            exact h

/-- Mark persistence for `remove`'s bucket step. -/
theorem removeB_marked_persist (k : Nat) :
    ∀ l n, n ∈ l → n.marked = true →
      n ∈ (removeB k l).list ∨ n ∈ (removeB k l).ret := by
  intro l
  induction l with
  | nil =>
    intro n hn hm
    simp at hn
  | cons m rest ih =>
    intro n hn hm
    by_cases hmm : m.marked
    · rcases List.mem_cons.mp hn with rfl | hn
      · right
        simp only [removeB, hmm, if_true]
        exact List.mem_cons_self _ _
      · rcases ih n hn hm with h | h
        · left
          simpa only [removeB, hmm, if_true] using h
        · right
          simp only [removeB, hmm, if_true]
          exact List.mem_cons_of_mem m h
    · by_cases hk : k ≤ m.key
      · by_cases he : m.key = k
        · rcases List.mem_cons.mp hn with rfl | hn
          · exact absurd hm hmm
          · left
            simp only [removeB]
            rw [if_neg hmm, if_pos hk, if_pos he]
            exact hn
        · left
          simp only [removeB]
          rw [if_neg hmm, if_pos hk, if_neg he]
          exact hn
      · rcases List.mem_cons.mp hn with rfl | hn
        · exact absurd hm hmm
        · rcases ih n hn hm with h | h
          · left
            simp only [removeB]
            rw [if_neg hmm, if_neg hk]
            exact List.mem_cons_of_mem m h
          · right
            simp only [removeB]
            rw [if_neg hmm, if_neg hk]
            exact h

/-- Mark persistence for `contains`'s traversal. -/
theorem findB_marked_persist (k : Nat) :
    ∀ l n, n ∈ l → n.marked = true →
      n ∈ (findB k l).list ∨ n ∈ (findB k l).ret := by
  intro l
  induction l with
  | nil =>
    intro n hn hm
    simp at hn
  | cons m rest ih =>
    intro n hn hm
    by_cases hmm : m.marked
    · rcases List.mem_cons.mp hn with rfl | hn
      · right
        simp only [findB, hmm, if_true]
        exact List.mem_cons_self _ _
      · rcases ih n hn hm with h | h
        · left
          simpa only [findB, hmm, if_true] using h
        · right
          simp only [findB, hmm, if_true]
          exact List.mem_cons_of_mem m h
    · by_cases hk : k ≤ m.key
      · left
        simp only [findB]
        rw [if_neg hmm, if_pos hk]
        exact hn
      · rcases List.mem_cons.mp hn with rfl | hn
        · exact absurd hm hmm
        · rcases ih n hn hm with h | h
          · left
            simp only [findB]
            rw [if_neg hmm, if_neg hk]
            exact List.mem_cons_of_mem m h
          · right
            simp only [findB]
            rw [if_neg hmm, if_neg hk]
            exact h

/-! ## The claims -/

set_option maxRecDepth 10000

/-- C1: the claim is refuted by the code.  `rehash_bucket` copies every
node of the old bucket, never consulting the deletion mark of
`curr->next`: rehashing an old array whose bucket 5 holds a single
logically deleted (marked) node with key 5 produces a new array whose
bucket 5 holds a live (unmarked) copy of that key — a logically deleted
node is copied, resurrecting a removed key. -/
theorem rehash_copies_marked :
    oldMarked.getD 5 [] = [⟨5, 0, true⟩] ∧
    (rehashAll oldMarked (List.replicate 128 [])).getD 5 [] = [⟨5, 0, false⟩] := by
  constructor
  · decide
  · decide

/-- C2: the claim is refuted by the code.  Starting from the fresh table,
the 129 inserts of `ins129` trigger the resize to 128 buckets, and
`rehash_bucket`'s push-at-head copying reverses the bucket order: bucket 1
of the reachable resulting state holds keys `[129, 1]`, not strictly
ascending.  One further `insert(1, 0)` then succeeds past the mis-ordered
head and leaves two live nodes with key 1 in the same bucket, violating
the uniqueness half of the invariant as well. -/
theorem resize_breaks_order :
    (runOps ins129).buckets.length = 128 ∧
    ((bucketAt (runOps ins129) 1).map fun n => n.key) = [129, 1] ∧
    sortedAscB (bucketAt (runOps ins129) 1) = false ∧
    ((bucketAt (runOps (ins129 ++ [Op.ins 1 0])) 1).map
      fun n => (n.key, n.marked)) = [(1, false), (129, false), (1, false)] := by
  refine ⟨by decide, by decide, by decide, by decide⟩

/-- C3: the claim is refuted by the code.  In `removeSched`, the first
pass of `remove(5)`'s loop finds the live node and its marking CAS
(line 191) succeeds, but the predecessor re-check at lines 195-196 fails,
so the code `continue`s instead of returning true; the second pass no
longer finds the key and returns false at line 181.  The invocation
logically deleted the node yet reports false (and never decrements
`count`). -/
theorem remove_mark_success_returns_false :
    removeRun 5 removeSched = some (false, true) := by decide

/-- C4 (amended): `contains(k)` allocates no node and never modifies a
live node, and whenever the traversed bucket holds no marked node it
leaves the table — buckets, count, and retired list — exactly unchanged;
but when the traversal meets a logically deleted node it unlinks it by
the CAS at line 284 and retires it at line 285. -/
theorem contains_no_mutation_of_unmarked (t : Table) (k : Nat)
    (hlen : 0 < t.buckets.length)
    (hun : allUn (bucketAt t (lfhash k t.buckets.length)) = true) :
    (containsT t k).2 = t := by
  have hidx : lfhash k t.buckets.length < t.buckets.length := Nat.mod_lt _ hlen
  obtain ⟨h1, h2⟩ := findB_of_allUn k _ hun
  unfold containsT
  dsimp only
  rw [h1, h2,
    show t.buckets.set (lfhash k t.buckets.length)
      (bucketAt t (lfhash k t.buckets.length)) = t.buckets from
      set_getD_self _ _ hidx]
  rfl

/-- Witness for C4's amended theorem at a concrete input. -/
theorem contains_no_mutation_of_unmarked_witness :
    (0 < mkTable.buckets.length ∧
      allUn (bucketAt mkTable (lfhash 3 mkTable.buckets.length)) = true) ∧
    (containsT mkTable 3).2 = mkTable :=
  ⟨⟨by decide, by decide⟩,
   contains_no_mutation_of_unmarked mkTable 3 (by decide) (by decide)⟩

/-- C4 as stated is false: on `tMarked` — bucket 1 holds a logically
deleted node — `contains(1)` changes the data structure: it CASes the
bucket head to unlink the node and retires it. -/
theorem contains_mutates_marked :
    (containsT tMarked 1).2 ≠ tMarked ∧
    (containsT tMarked 1).2.retired = [⟨1, 0, true⟩] := by
  constructor
  · decide
  · decide

/-- C5 (amended): within the bucket lists the mark is never cleared and
a marked node is never re-inserted.  Both directions are proved, for
`insert`'s, `remove`'s, and `contains`'s bucket steps.  No marked
insertion: any marked node present in a bucket after the step was already
present, as the same record, in the bucket before (the only nodes the
steps add are freshly allocated unmarked ones).  Mark persistence: any
marked node present in the bucket before the step survives — as the same
record, so with its key, value, and mark intact, never rewritten as
unmarked — either in the output bucket or among the nodes handed to
`retire_node`.  `retire_node` and `scan_retired_nodes`, however, do
repurpose the retired node's `next` field, storing unmarked retired-list
links into it (see the counterexample). -/
theorem bucket_ops_never_clear_mark (k v : Nat) (l : List NodeR) (n : NodeR) :
    (n ∈ (insertB k v l).list → n.marked = true → n ∈ l) ∧
    (n ∈ (removeB k l).list → n.marked = true → n ∈ l) ∧
    (n ∈ (findB k l).list → n.marked = true → n ∈ l) ∧
    (n ∈ l → n.marked = true →
      n ∈ (insertB k v l).list ∨ n ∈ (insertB k v l).ret) ∧
    (n ∈ l → n.marked = true →
      n ∈ (removeB k l).list ∨ n ∈ (removeB k l).ret) ∧
    (n ∈ l → n.marked = true →
      n ∈ (findB k l).list ∨ n ∈ (findB k l).ret) :=
  ⟨insertB_marked_mem k v l n, removeB_marked_mem k l n, findB_marked_mem k l n,
   insertB_marked_persist k v l n, removeB_marked_persist k l n,
   findB_marked_persist k l n⟩

/-- Witness for C5's amended theorem at a concrete input: a marked node
sitting after the insertion point stays in the list (it was not newly
inserted, and it persists with its mark intact). -/
theorem bucket_ops_never_clear_mark_witness :
    ((⟨3, 0, true⟩ : NodeR) ∈ (insertB 1 9 [⟨1, 5, false⟩, ⟨3, 0, true⟩]).list ∧
      (⟨3, 0, true⟩ : NodeR).marked = true ∧
      (⟨3, 0, true⟩ : NodeR) ∈ [(⟨1, 5, false⟩ : NodeR), ⟨3, 0, true⟩]) ∧
    (⟨3, 0, true⟩ : NodeR) ∈ [(⟨1, 5, false⟩ : NodeR), ⟨3, 0, true⟩] ∧
    ((⟨3, 0, true⟩ : NodeR) ∈ (insertB 1 9 [⟨1, 5, false⟩, ⟨3, 0, true⟩]).list ∨
      (⟨3, 0, true⟩ : NodeR) ∈ (insertB 1 9 [⟨1, 5, false⟩, ⟨3, 0, true⟩]).ret) :=
  ⟨⟨by decide, by decide, by decide⟩,
   (bucket_ops_never_clear_mark 1 9 [⟨1, 5, false⟩, ⟨3, 0, true⟩] ⟨3, 0, true⟩).1
     (by decide) (by decide),
   (bucket_ops_never_clear_mark 1 9 [⟨1, 5, false⟩, ⟨3, 0, true⟩]
     ⟨3, 0, true⟩).2.2.2.1 (by decide) (by decide)⟩

/-- C5 as stated is false: `retire_node` (line 385) stores
`MarkedPtr(old_head, false, 0)` — an unmarked word — into the `next`
field of the retired node, whose mark was set by the line-191 CAS: a
step of retire stores a value with the mark clear into a marked node's
`next` field. -/
theorem retire_clears_mark :
    (MarkedPtr.pack 0 true 1).marked = true ∧
    (retireNodeWrite 7 ⟨5, MarkedPtr.pack 0 true 1⟩).next.marked = false := by
  constructor
  · decide
  · decide

/-- C6: the claim is refuted by the code.  The single-operator sequence
`insert(1,0) … insert(129,0), contains(1)` from the fresh table returns
true for all 129 inserts — so `insert(1, *)` returned true and no
`remove(1)` ever ran — yet the final `contains(1)` returns false: the
129th insert triggered the resize, the rebuilt bucket 1 holds `[129, 1]`,
and `find_bucket` stops at the first key ≥ 1, missing key 1 behind
key 129. -/
theorem set_semantics_violated :
    runTrace mkTable (ins129 ++ [Op.qry 1]) =
      List.replicate 129 true ++ [false] := by decide

/-- Supporting sequential result: after any finite sequence of operations
run by a single operator from the fresh table, `count` equals the number
of live (unmarked) nodes reachable from the current bucket array — the
drift refuting C8 (see `count_drifts_at_quiescence`) needs concurrent
interference. -/
theorem count_matches_live_nodes_sequential (ops : List Op) :
    (runOps ops).count = liveSum (runOps ops).buckets :=
  (runFrom_inv ops mkTable mkTable_inv).1

/-- C8: the claim is refuted by the code.  `tDrift` is the reachable
concurrent state in which operator B's `remove(5)` has completed
(decrementing `count` to 1) while operator A's `remove(69)` has marked
node 69 but failed its lines-195/196 re-check (the predecessor's next
field was marked by B).  A's loop `continue`s, and its retry pass —
evaluated here as `removeT tDrift 69` — cooperatively unlinks and retires
the marked node 69, returns false at line 181, and never decrements
`count`.  Both operations are then complete and no operation is in
flight, yet `count = 1` while zero live nodes are reachable: the
quiescent count does not equal the live-node count, permanently. -/
theorem count_drifts_at_quiescence :
    tDrift.count = 1 ∧
    (removeT tDrift 69).1 = false ∧
    (removeT tDrift 69).2.count = 1 ∧
    liveSum (removeT tDrift 69).2.buckets = 0 := by
  refine ⟨by decide, by decide, by decide, by decide⟩

/-- C9 (amended): `remove(k)` for a key with no live (unmarked) entry
returns false and leaves `count` unchanged; and whenever the traversed
bucket also holds no marked node, the whole table — buckets and retired
list included — is exactly unchanged.  (When the bucket does hold marked
nodes, the traversal cooperatively unlinks and retires them; see the
counterexample.) -/
theorem remove_absent_false (t : Table) (k : Nat)
    (hlen : 0 < t.buckets.length)
    (habs : ∀ b ∈ t.buckets, ∀ n ∈ b, n.marked = false → n.key ≠ k) :
    (removeT t k).1 = false ∧ (removeT t k).2.count = t.count ∧
    (allUn (bucketAt t (lfhash k t.buckets.length)) = true →
      (removeT t k).2 = t) := by
  have hidx : lfhash k t.buckets.length < t.buckets.length := Nat.mod_lt _ hlen
  have habs' : ∀ n ∈ bucketAt t (lfhash k t.buckets.length),
      n.marked = false → n.key ≠ k :=
    habs _ (getD_mem _ _ hidx)
  have hok := removeB_absent k _ habs'
  unfold removeT
  dsimp only
  rw [hok]
  simp only [Bool.false_eq_true, if_false]
  refine ⟨by trivial, by trivial, ?_⟩
  intro hun
  obtain ⟨_, _, h3⟩ := removeB_of_allUn k _ hun
  rw [(h3 hok).1, (h3 hok).2,
    show t.buckets.set (lfhash k t.buckets.length)
      (bucketAt t (lfhash k t.buckets.length)) = t.buckets from
      set_getD_self _ _ hidx]
  rfl

/-- Witness for C9's amended theorem at a concrete input. -/
theorem remove_absent_false_witness :
    (0 < mkTable.buckets.length ∧
      (∀ b ∈ mkTable.buckets, ∀ n ∈ b, n.marked = false → n.key ≠ 5)) ∧
    (removeT mkTable 5).1 = false ∧ (removeT mkTable 5).2 = mkTable :=
  ⟨⟨by decide, by decide⟩,
   (remove_absent_false mkTable 5 (by decide) (by decide)).1,
   (remove_absent_false mkTable 5 (by decide) (by decide)).2.2 (by decide)⟩

/-- C9 as stated is false: on `tMarked` the key 1 has no live entry, and
`remove(1)` does return false — but it does not leave the table
unchanged: the traversal unlinks the marked node (a CAS on the bucket
head) and retires it. -/
theorem remove_absent_mutates :
    (∀ b ∈ tMarked.buckets, ∀ n ∈ b, n.marked = false → n.key ≠ 1) ∧
    (removeT tMarked 1).1 = false ∧ (removeT tMarked 1).2 ≠ tMarked := by
  refine ⟨by decide, by decide, by decide⟩

/-- C10: every CAS on a tagged reference — `insert`'s link (line 161),
`remove`'s marking (line 190) and unlink (line 199), the traversal's
cooperative unlink (line 283), and the resize rehash push (line 341,
whose first attempt is the one that succeeds since the new array is
private to the single resizer) — writes a `desired` word whose version
tag is the observed expected word's tag plus one, reduced modulo `2^15`
by the `MarkedPtr` packing. -/
theorem cas_tag_advances (nn cn : Nat) (e : MarkedPtr) :
    (insertDesired nn e).tag = (e.tag + 1) % 2 ^ 15 ∧
    (removeMarkDesired e).tag = (e.tag + 1) % 2 ^ 15 ∧
    (removeUnlinkDesired cn e).tag = (e.tag + 1) % 2 ^ 15 ∧
    (findUnlinkDesired nn e).tag = (e.tag + 1) % 2 ^ 15 ∧
    (rehashDesired nn e).tag = (e.tag + 1) % 2 ^ 15 := by
  refine ⟨?_, ?_, ?_, ?_, ?_⟩ <;>
    simp [insertDesired, removeMarkDesired, removeUnlinkDesired,
      findUnlinkDesired, rehashDesired, MarkedPtr.tag_pack]

end LFHT
